import Mathlib

/-!
Shallow embedding of the `fiatconv` repository (Go): the GOB-encoded
key/value cache of `cache/cache.go` and the conversion pipeline
`fiatConv` of `main.go`, together with theorems settling the spec
claims about them.

Modelling conventions:
  - Go `interface{}` (dynamically typed) keys and values become the
    inductive `GoVal`; `float64` payloads are modelled as exact
    rationals (the claims under verification concern data flow, not
    binary floating-point rounding).
  - A Go map is represented as an association list in which an insert
    removes any previous binding of the key, so keys stay unique and
    lookup is the first (unique) match, matching Go map semantics.
  - The GOB byte stream is modelled abstractly by `GobStream`: a
    stream either fails to decode (empty stream, malformed data,
    wrong schema, missing file) or is a faithful encoding of a list
    of key/item pairs, reflecting that `encoding/gob` round-trips the
    registered types in use (float64 rates and the registered
    composite `key{From, To string}`).
  - File I/O (`loadCache` opening the cache path, `saveCache`
    creating it) is folded into the `store : GobStream` field of the
    pipeline input: a missing or unreadable file is the undecodable
    stream `GobStream.empty`, which `cache.Load` already treats as an
    empty cache, exactly as `loadCache` does in the source.
-/

/-- Dynamically typed Go value (`interface{}`): a `float64` rate
(modelled as a rational), a string, or the composite lookup key
`key{From, To string}` registered with gob in `fiatConv`. -/
inductive GoVal where
  | float64 (r : Rat)
  | str (s : String)
  | keyFromTo (frm t : String)
deriving DecidableEq, Repr

/-- Embeds `type item struct { Expires int64; Value interface{} }`
from cache/cache.go. -/
structure Item where
  Expires : Int
  Value : GoVal
deriving DecidableEq, Repr

/-- Lookup in the association-list representation of a Go map:
first binding of the key (bindings are kept unique by `mapSet`). -/
def mapLookup (m : List (GoVal × Item)) (k : GoVal) : Option Item :=
  (m.find? (fun p => decide (p.1 = k))).map Prod.snd

/-- Insertion `m[k] = itm` on the association-list representation of
a Go map: drop any previous binding of `k`, add the new one. -/
def mapSet (m : List (GoVal × Item)) (k : GoVal) (itm : Item) : List (GoVal × Item) :=
  (k, itm) :: m.filter (fun p => !decide (p.1 = k))

/-- Embeds `type Cache struct { m map[interface{}]item }`. -/
structure Cache where
  m : List (GoVal × Item)
deriving DecidableEq, Repr

/-- Abstract model of the GOB byte stream fed to `Load` / produced by
`Save`: it either fails to decode (empty stream, malformed bytes,
wrong schema — all indistinguishable to the decoder's caller) or is a
faithful encoding of a sequence of key/item pairs. -/
inductive GobStream where
  | empty
  | malformed
  | encoded (entries : List (GoVal × Item))
deriving DecidableEq, Repr

/-- Model of `gob.NewDecoder(r).Decode(&c.m)`: the pairs carried by a
well-formed stream, or failure. -/
def decodeStream : GobStream → Option (List (GoVal × Item))
  | GobStream.empty => none
  | GobStream.malformed => none
  | GobStream.encoded l => some l

/-- Decoding gob pairs into a fresh map: each pair is inserted in
order, later pairs overwriting earlier bindings of the same key. -/
def decodeMap (l : List (GoVal × Item)) : List (GoVal × Item) :=
  l.foldl (fun m p => mapSet m p.1 p.2) []

/-- Embeds `Load` (cache/cache.go lines 25-39): decode the stream into
a fresh map — on any decode error return the empty cache — then purge
every entry whose `Expires` is before `cutoff`. The Go function never
returns an error; correspondingly this is a total function into
`Cache`. -/
def Load (s : GobStream) (cutoff : Int) : Cache :=
  match decodeStream s with
  | none => ⟨[]⟩
  | some l => ⟨(decodeMap l).filter (fun p => !decide (p.2.Expires < cutoff))⟩

/-- Embeds `Save` (cache/cache.go lines 42-44): encode the whole
current mapping, with no expiry check. -/
def Cache.Save (c : Cache) : GobStream :=
  GobStream.encoded c.m

/-- Embeds `Set` (cache/cache.go lines 47-49):
`c.m[key] = item{expires, value}`. -/
def Cache.Set (c : Cache) (key value : GoVal) (expires : Int) : Cache :=
  ⟨mapSet c.m key ⟨expires, value⟩⟩

/-- Embeds `Get` (cache/cache.go lines 52-57): map lookup returning
`(item.Value, true)` on presence and `(nil, false)` otherwise,
rendered as `Option GoVal`. No expiry check. -/
def Cache.Get (c : Cache) (k : GoVal) : Option GoVal :=
  (mapLookup c.m k).map Item.Value

/-- Fresh empty cache, as built by `Load` on a failed decode. -/
def Cache.empty : Cache := ⟨[]⟩

theorem mapLookup_nil (k : GoVal) : mapLookup [] k = none := rfl

theorem mapLookup_cons (p : GoVal × Item) (m : List (GoVal × Item)) (k : GoVal) :
    mapLookup (p :: m) k = if p.1 = k then some p.2 else mapLookup m k := by
  by_cases h : p.1 = k <;> simp [mapLookup, List.find?_cons, h]

theorem mapLookup_eq_none_of_not_mem (m : List (GoVal × Item)) (k : GoVal)
    (h : k ∉ m.map Prod.fst) : mapLookup m k = none := by
  induction m with
  | nil => rfl
  | cons p m ih =>
      have h1 : ¬ p.1 = k := fun he => h (by
        rw [List.map_cons]; exact List.mem_cons.mpr (Or.inl he.symm))
      have h2 : k ∉ m.map Prod.fst := fun hm => h (by
        rw [List.map_cons]; exact List.mem_cons.mpr (Or.inr hm))
      rw [mapLookup_cons, if_neg h1, ih h2]

theorem mapLookup_filter_expires (m : List (GoVal × Item)) (cutoff : Int) (k : GoVal)
    (hnd : (m.map Prod.fst).Nodup) :
    mapLookup (m.filter (fun p => !decide (p.2.Expires < cutoff))) k
      = (mapLookup m k).bind
          (fun itm => if cutoff ≤ itm.Expires then some itm else none) := by
  induction m with
  | nil => rfl
  | cons p m ih =>
      rw [List.map_cons, List.nodup_cons] at hnd
      by_cases he : p.2.Expires < cutoff
      · rw [List.filter_cons_of_neg (by simp [he]), ih hnd.2, mapLookup_cons]
        by_cases hk : p.1 = k
        · subst hk
          rw [mapLookup_eq_none_of_not_mem m p.1 hnd.1]
          simp [show ¬ cutoff ≤ p.2.Expires by omega]
        · rw [if_neg hk]
      · rw [List.filter_cons_of_pos (by simp [he]), mapLookup_cons, mapLookup_cons,
          ih hnd.2]
        by_cases hk : p.1 = k
        · simp [hk, show cutoff ≤ p.2.Expires by omega]
        · simp [hk]

theorem mapLookup_filter_key (m : List (GoVal × Item)) (k k' : GoVal) :
    mapLookup (m.filter (fun p => !decide (p.1 = k))) k'
      = if k' = k then none else mapLookup m k' := by
  induction m with
  | nil => by_cases hk : k' = k <;> simp [mapLookup_nil, hk]
  | cons p m ih =>
      by_cases hp : p.1 = k
      · rw [List.filter_cons_of_neg (by simp [hp]), ih, mapLookup_cons]
        by_cases hk : k' = k
        · simp [hk]
        · have hpk : ¬ p.1 = k' := by rw [hp]; exact fun h => hk h.symm
          simp [hk, hpk]
      · rw [List.filter_cons_of_pos (by simp [hp]), mapLookup_cons, mapLookup_cons, ih]
        by_cases hpk : p.1 = k'
        · have hk : ¬ k' = k := by rw [← hpk]; exact fun h => hp h
          simp [hpk, hk]
        · simp [hpk]

theorem mapLookup_mapSet (m : List (GoVal × Item)) (k k' : GoVal) (itm : Item) :
    mapLookup (mapSet m k itm) k'
      = if k' = k then some itm else mapLookup m k' := by
  by_cases hk : k' = k
  · simp [mapSet, mapLookup_cons, hk]
  · have hk2 : ¬ k = k' := fun h => hk h.symm
    simp [mapSet, mapLookup_cons, hk, hk2, mapLookup_filter_key]

theorem mapSet_keys_nodup (m : List (GoVal × Item)) (k : GoVal) (itm : Item)
    (h : (m.map Prod.fst).Nodup) : ((mapSet m k itm).map Prod.fst).Nodup := by
  unfold mapSet
  rw [List.map_cons, List.nodup_cons]
  refine ⟨fun hmem => ?_, ?_⟩
  · obtain ⟨p, hp, hpk⟩ := List.mem_map.mp hmem
    have hfil := List.of_mem_filter hp
    simp [hpk] at hfil
  · exact h.sublist ((List.filter_sublist m).map Prod.fst)

theorem decodeMap_keys_nodup (l : List (GoVal × Item)) :
    ((decodeMap l).map Prod.fst).Nodup := by
  have hgen : ∀ (l m : List (GoVal × Item)), (m.map Prod.fst).Nodup →
      (((l.foldl (fun m p => mapSet m p.1 p.2) m)).map Prod.fst).Nodup := by
    intro l
    induction l with
    | nil => intro m h; exact h
    | cons p l ih => intro m h; exact ih _ (mapSet_keys_nodup m p.1 p.2 h)
  exact hgen l [] List.nodup_nil

/-- Lookup of the LAST binding of a key in a list of pairs: this is
what decoding into a Go map yields, since later pairs overwrite
earlier ones. -/
def lookupLast (l : List (GoVal × Item)) (k : GoVal) : Option Item :=
  match l with
  | [] => none
  | p :: rest => (lookupLast rest k).orElse
      (fun _ => if p.1 = k then some p.2 else none)

theorem mapLookup_foldl_mapSet (l : List (GoVal × Item)) (m : List (GoVal × Item))
    (k : GoVal) :
    mapLookup (l.foldl (fun m p => mapSet m p.1 p.2) m) k
      = (lookupLast l k).orElse (fun _ => mapLookup m k) := by
  induction l generalizing m with
  | nil => rfl
  | cons p l ih =>
      rw [List.foldl_cons, ih, lookupLast]
      rcases hll : lookupLast l k with _ | itm
      · show mapLookup (mapSet m p.1 p.2) k
          = (if p.1 = k then some p.2 else none).orElse (fun _ => mapLookup m k)
        rw [mapLookup_mapSet]
        by_cases hk : k = p.1
        · simp only [if_pos hk, if_pos hk.symm]; rfl
        · have hk2 : ¬ p.1 = k := fun h => hk h.symm
          simp only [if_neg hk, if_neg hk2]; rfl
      · rfl

theorem mapLookup_decodeMap (l : List (GoVal × Item)) (k : GoVal) :
    mapLookup (decodeMap l) k = lookupLast l k := by
  rw [decodeMap, mapLookup_foldl_mapSet]
  rcases hll : lookupLast l k with _ | itm <;> rfl

theorem lookupLast_eq_mapLookup (l : List (GoVal × Item)) (k : GoVal)
    (h : (l.map Prod.fst).Nodup) : lookupLast l k = mapLookup l k := by
  induction l with
  | nil => rfl
  | cons p l ih =>
      rw [List.map_cons, List.nodup_cons] at h
      rw [lookupLast, mapLookup_cons, ih h.2]
      by_cases hk : p.1 = k
      · have hnone : mapLookup l k = none := by
          refine mapLookup_eq_none_of_not_mem l k ?_
          rw [← hk]; exact h.1
        rw [hnone]
        simp only [if_pos hk]
        rfl
      · simp only [if_neg hk]
        rcases hml : mapLookup l k with _ | itm <;> rfl

/-- Digit-string value: fold of decimal digits. -/
def digitsVal (l : List Char) : Nat :=
  l.foldl (fun a c => a * 10 + (c.toNat - 48)) 0

/-- Application of a decimal exponent to a mantissa. -/
def applyExp (m : Rat) (e : Int) : Rat :=
  if 0 ≤ e then m * (10 : Rat) ^ e.toNat else m / (10 : Rat) ^ (-e).toNat

/-- Exponent part after `e`/`E`: optional sign then at least one
digit. -/
def parseExp (cs : List Char) : Option Int :=
  let p :=
    match cs with
    | '-' :: r => (true, r)
    | '+' :: r => (false, r)
    | _ => (false, cs)
  if p.2.isEmpty then none
  else if p.2.all Char.isDigit then
    some (if p.1 then -(digitsVal p.2 : Int) else (digitsVal p.2 : Int))
  else none

/-- Model of Go `strconv.ParseFloat` (standard-library code outside
this repository) on ordinary decimal syntax: optional sign, decimal
digits with optional fractional part and optional exponent, at least
one digit overall, nothing trailing. The parsed `float64` is
modelled as an exact rational. -/
def parseFloat64 (s : String) : Option Rat :=
  let p :=
    match s.data with
    | '-' :: r => (true, r)
    | '+' :: r => (false, r)
    | _ => (false, s.data)
  let ip := p.2.takeWhile Char.isDigit
  let cs2 := p.2.dropWhile Char.isDigit
  let q :=
    match cs2 with
    | '.' :: r => (r.takeWhile Char.isDigit, r.dropWhile Char.isDigit)
    | _ => ([], cs2)
  if ip.isEmpty ∧ q.1.isEmpty then none
  else
    let mant : Rat := (digitsVal ip : Rat) + (digitsVal q.1 : Rat) / (10 : Rat) ^ q.1.length
    let sm : Rat := if p.1 then -mant else mant
    match q.2 with
    | [] => some sm
    | 'e' :: r => (parseExp r).map (fun e => applyExp sm e)
    | 'E' :: r => (parseExp r).map (fun e => applyExp sm e)
    | _ => none

/-- Embeds `const fiatNameLength = 3` from main.go. -/
def fiatNameLength : Nat := 3

/-- Embeds `type request struct { amount float64; from, to string }`
from main.go (`from`/`to` renamed: `from` is reserved in Lean). -/
structure Request where
  amount : Rat
  fromCur : String
  toCur : String
deriving DecidableEq, Repr

/-- Embeds `parseArguments` (main.go): needs at least four arguments
(program name included), a parseable float amount, and currency codes
of byte length exactly 3 (Go `len` on a string counts bytes), which
are upper-cased; arguments past the third are ignored. Go errors are
rendered as their message strings. -/
def parseArguments (args : List String) : Except String Request :=
  if args.length < 4 then Except.error "too few arguments"
  else
    match parseFloat64 (args.getD 1 "") with
    | none => Except.error ("Invalid amount: strconv.ParseFloat: parsing \""
        ++ args.getD 1 "" ++ "\": invalid syntax")
    | some amount =>
      if (args.getD 2 "").utf8ByteSize ≠ fiatNameLength then
        Except.error ("Invalid fiat: " ++ args.getD 2 "")
      else if (args.getD 3 "").utf8ByteSize ≠ fiatNameLength then
        Except.error ("Invalid fiat: " ++ args.getD 3 "")
      else
        Except.ok ⟨amount, (args.getD 2 "").toUpper, (args.getD 3 "").toUpper⟩

/-- Embeds `printUsage` (main.go): the usage text written to the
error stream, final newline from `Fprintln` included. -/
def usageText : String :=
  "Usage: fiatconv <amount> <from_fiat> <to_fiat>\n\nThis utility converts \"amount\" of money in \"from_fiat\" currency to amount in\n\"to_fiat\" currency. Both currencies are given as ISO 4217 code (eg. USD).\n"

/-- Floor of a rational as an integer, computed by floored integer
division. -/
def ratFloor (q : Rat) : Int :=
  q.num.fdiv q.den

/-- Round to nearest integer, ties to even, as Go float formatting
does. -/
def roundHalfEven (q : Rat) : Int :=
  let f := ratFloor q
  let frac := q - (f : Rat)
  if frac < 1 / 2 then f
  else if 1 / 2 < frac then f + 1
  else if f % 2 = 0 then f else f + 1

/-- Two-digit zero-padded rendering of a value below 100. -/
def pad2 (n : Nat) : String :=
  if n < 10 then "0" ++ toString n else toString n

/-- Model of Go `fmt` `%.2f` formatting on the rational model of
float64: round to two decimal places, render with exactly two
fractional digits. -/
def fmtF2 (q : Rat) : String :=
  let n := roundHalfEven (q * 100)
  let sgn := if n < 0 then "-" else ""
  let a := n.natAbs
  sgn ++ toString (a / 100) ++ "." ++ pad2 (a % 100)

/-- Embeds `cacheLifetime = time.Hour` in Unix seconds. -/
def cacheLifetime : Int := 3600

/-- Rate extraction from a cache lookup, embedding main.go lines
167-173: `rate` stays zero unless the key is present AND the stored
value type-asserts to `float64`. -/
def cachedRate (c : Cache) (k : GoVal) : Rat :=
  match c.Get k with
  | some (GoVal.float64 f) => f
  | _ => 0

/-- Input of one `fiatConv` run: the argument vector, the current
contents of the cache backing store (a missing or unreadable cache
file is the undecodable stream), the current Unix time, and the
injected rate provider `convert` returning a rate or an error
message. -/
structure AppInput where
  args : List String
  store : GobStream
  now : Int
  convert : String → String → Except String Rat

/-- Observable outcome of one `fiatConv` run: exit code, bytes
written to the output and error streams, the backing store contents
afterwards, and whether the rate provider was invoked. -/
structure AppOutput where
  exitCode : Nat
  stdout : String
  stderr : String
  store : GobStream
  providerCalled : Bool
deriving DecidableEq, Repr

/-- Embeds `fiatConv` (main.go lines 152-189): parse the arguments
(on failure: error, blank line, usage text to stderr, exit 1); load
the cache with cutoff `now - cacheLifetime`; look up `key{from,to}`;
a non-zero float64 hit is used directly; otherwise call the provider
(on failure: its message to stderr, exit 1), store `(key, rate, now)`
and persist the cache; finally print `rate * amount` with `%.2f` and
exit 0. -/
def fiatConv (a : AppInput) : AppOutput :=
  match parseArguments a.args with
  | Except.error e =>
      ⟨1, "", e ++ "\n\n" ++ usageText, a.store, false⟩
  | Except.ok req =>
      let c := Load a.store (a.now - cacheLifetime)
      let k := GoVal.keyFromTo req.fromCur req.toCur
      let rate := cachedRate c k
      if rate = 0 then
        match a.convert req.fromCur req.toCur with
        | Except.error msg => ⟨1, "", msg ++ "\n", a.store, true⟩
        | Except.ok r =>
            ⟨0, fmtF2 (r * req.amount) ++ "\n", "",
              (c.Set k (GoVal.float64 r) a.now).Save, true⟩
      else
        ⟨0, fmtF2 (rate * req.amount) ++ "\n", "", a.store, false⟩

instance decEqExcept {e a : Type} [DecidableEq e] [DecidableEq a] :
    DecidableEq (Except e a) :=
  fun x y =>
    match x, y with
    | Except.error u, Except.error v => decidable_of_iff (u = v) (by simp)
    | Except.ok u, Except.ok v => decidable_of_iff (u = v) (by simp)
    | Except.error _, Except.ok _ => isFalse (fun h => Except.noConfusion h)
    | Except.ok _, Except.error _ => isFalse (fun h => Except.noConfusion h)

theorem mem_of_mapLookup (m : List (GoVal × Item)) (k : GoVal) (itm : Item)
    (h : mapLookup m k = some itm) : (k, itm) ∈ m := by
  unfold mapLookup at h
  rcases hf : m.find? (fun p => decide (p.1 = k)) with _ | p
  · rw [hf] at h; cases h
  · rw [hf] at h
    have hp2 : p.2 = itm := by
      simp at h
      exact h
    have hpk : p.1 = k := by
      have := List.find?_some hf
      simpa using this
    have hm := List.mem_of_find?_eq_some hf
    rw [← hpk, ← hp2]
    exact hm

/-- Rate of zero plus a successful provider call: the shared
miss-path outcome of `fiatConv` (store the rate under the key with
expiry `now`, persist, print, exit 0). -/
theorem fiatConv_zero_rate_ok (a : AppInput) (req : Request) (r : Rat)
    (hp : parseArguments a.args = Except.ok req)
    (hz : cachedRate (Load a.store (a.now - cacheLifetime))
        (GoVal.keyFromTo req.fromCur req.toCur) = 0)
    (hc : a.convert req.fromCur req.toCur = Except.ok r) :
    fiatConv a = ⟨0, fmtF2 (r * req.amount) ++ "\n", "",
        ((Load a.store (a.now - cacheLifetime)).Set
            (GoVal.keyFromTo req.fromCur req.toCur) (GoVal.float64 r) a.now).Save,
        true⟩ := by
  unfold fiatConv
  rw [hp]
  simp only [hz, hc, eq_self_iff_true, if_true]

set_option maxRecDepth 100000

/-- C1: for every serialized mapping and cutoff, `Load` keeps exactly
the entries whose `expires` is at least the cutoff, with their
original key and value, and drops every entry whose `expires` is
strictly below the cutoff; the returned cache answers `Get` from the
purged map alone, with no further expiry check. -/
theorem load_purges_only_expired (l : List (GoVal × Item)) (cutoff : Int) (k : GoVal) :
    (Load (GobStream.encoded l) cutoff).Get k
      = (mapLookup (decodeMap l) k).bind
          (fun itm => if cutoff ≤ itm.Expires then some itm.Value else none) := by
  show (mapLookup ((decodeMap l).filter
      (fun p => !decide (p.2.Expires < cutoff))) k).map Item.Value = _
  rw [mapLookup_filter_expires _ _ _ (decodeMap_keys_nodup l)]
  rcases mapLookup (decodeMap l) k with _ | itm
  · rfl
  · by_cases he : cutoff ≤ itm.Expires <;> simp [he]

/-- C5: `Load` is a total function into `Cache` — no error is ever
returned — and on any stream that fails to deserialize (empty
stream, malformed data, wrong schema) it returns a fresh empty
cache. -/
theorem load_decode_failure_empty (s : GobStream) (cutoff : Int)
    (h : decodeStream s = none) : Load s cutoff = Cache.empty := by
  unfold Load
  rw [h]
  rfl

/-- Witness for C5 at the empty stream. -/
theorem load_decode_failure_empty_witness :
    decodeStream GobStream.empty = none
      ∧ Load GobStream.empty 0 = Cache.empty :=
  ⟨rfl, load_decode_failure_empty GobStream.empty 0 rfl⟩

/-- C6: `Save` serializes the entire mapping with no expiry check
(entries already past expiry included), and for any cutoff at most
every entry's `expires`, a save/load round trip yields a cache with
exactly the same keys and values. -/
theorem save_load_roundtrip (c : Cache) (cutoff : Int)
    (hnd : (c.m.map Prod.fst).Nodup)
    (hex : ∀ p ∈ c.m, cutoff ≤ p.2.Expires) :
    decodeStream c.Save = some c.m
      ∧ ∀ k, (Load c.Save cutoff).Get k = c.Get k := by
  refine ⟨rfl, fun k => ?_⟩
  show (mapLookup ((decodeMap c.m).filter
      (fun p => !decide (p.2.Expires < cutoff))) k).map Item.Value
    = (mapLookup c.m k).map Item.Value
  rw [mapLookup_filter_expires _ _ _ (decodeMap_keys_nodup c.m),
    mapLookup_decodeMap, lookupLast_eq_mapLookup _ _ hnd]
  rcases hml : mapLookup c.m k with _ | itm
  · rfl
  · have hmem := mem_of_mapLookup c.m k itm hml
    have hcut := hex _ hmem
    simp [hcut]

/-- Witness for C6 on a one-entry cache whose entry expires after
the cutoff. -/
theorem save_load_roundtrip_witness :
    decodeStream (Cache.Save ⟨[(GoVal.str "a", ⟨100, GoVal.float64 1⟩)]⟩)
        = some [(GoVal.str "a", ⟨100, GoVal.float64 1⟩)]
      ∧ (Load (Cache.Save ⟨[(GoVal.str "a", ⟨100, GoVal.float64 1⟩)]⟩) 50).Get
          (GoVal.str "a")
        = Cache.Get ⟨[(GoVal.str "a", ⟨100, GoVal.float64 1⟩)]⟩ (GoVal.str "a") := by
  have h := save_load_roundtrip ⟨[(GoVal.str "a", ⟨100, GoVal.float64 1⟩)]⟩ 50
    (by decide) (by decide)
  exact ⟨h.1, h.2 (GoVal.str "a")⟩

/-- C9: for every cache, key, value and expiry timestamp — past ones
included — `Get` right after `Set` on that key returns the stored
value, and `Get` on a never-written key of a fresh cache returns the
not-found state; `Get` neither checks nor mutates `expires`. -/
theorem set_get_same_key (c : Cache) (k value : GoVal) (expires : Int) (k' : GoVal) :
    ((c.Set k value expires).Get k = some value)
      ∧ (Cache.empty.Get k' = none) := by
  constructor
  · show (mapLookup (mapSet c.m k ⟨expires, value⟩) k).map Item.Value = some value
    rw [mapLookup_mapSet]
    simp
  · rfl

/-- C2: on a parsed request whose key is absent from the cache loaded
with cutoff `now - cacheLifetime`, a successful provider call makes
`fiatConv` store the rate under `key{from,to}` with expiry `now`,
persist the cache to the backing store, write `rate * amount`
formatted to two decimals plus a newline to the output stream, and
return exit code 0. -/
theorem fiatConv_miss_success (a : AppInput) (req : Request) (r : Rat)
    (hp : parseArguments a.args = Except.ok req)
    (hm : (Load a.store (a.now - cacheLifetime)).Get
        (GoVal.keyFromTo req.fromCur req.toCur) = none)
    (hc : a.convert req.fromCur req.toCur = Except.ok r) :
    fiatConv a = ⟨0, fmtF2 (r * req.amount) ++ "\n", "",
        ((Load a.store (a.now - cacheLifetime)).Set
            (GoVal.keyFromTo req.fromCur req.toCur) (GoVal.float64 r) a.now).Save,
        true⟩
      ∧ mapLookup ((Load a.store (a.now - cacheLifetime)).Set
            (GoVal.keyFromTo req.fromCur req.toCur) (GoVal.float64 r) a.now).m
          (GoVal.keyFromTo req.fromCur req.toCur)
        = some ⟨a.now, GoVal.float64 r⟩ := by
  have hz : cachedRate (Load a.store (a.now - cacheLifetime))
      (GoVal.keyFromTo req.fromCur req.toCur) = 0 := by
    unfold cachedRate
    rw [hm]
  refine ⟨fiatConv_zero_rate_ok a req r hp hz hc, ?_⟩
  show mapLookup (mapSet _ _ _) _ = _
  rw [mapLookup_mapSet]
  simp

/-- Witness for C2: 5 USD to AUD at provider rate 2 on an empty
store. -/
theorem fiatConv_miss_success_witness :
    fiatConv ⟨["prog", "5", "USD", "AUD"], GobStream.empty, 1000,
        fun _ _ => Except.ok 2⟩
      = ⟨0, fmtF2 ((2 : Rat) * 5) ++ "\n", "",
          ((Load GobStream.empty (1000 - cacheLifetime)).Set
              (GoVal.keyFromTo "USD" "AUD") (GoVal.float64 2) 1000).Save, true⟩
      ∧ mapLookup ((Load GobStream.empty (1000 - cacheLifetime)).Set
            (GoVal.keyFromTo "USD" "AUD") (GoVal.float64 2) 1000).m
          (GoVal.keyFromTo "USD" "AUD")
        = some ⟨1000, GoVal.float64 2⟩ :=
  fiatConv_miss_success _ ⟨5, "USD", "AUD"⟩ 2 (by with_unfolding_all decide) rfl rfl

/-- C3: a cache hit whose stored rate is exactly zero forces the
provider call just like a miss, while a hit with a non-zero stored
rate is used as the rate and the provider is never invoked. -/
theorem hit_zero_like_miss (a : AppInput) (req : Request) (f : Rat)
    (hp : parseArguments a.args = Except.ok req)
    (hg : (Load a.store (a.now - cacheLifetime)).Get
        (GoVal.keyFromTo req.fromCur req.toCur) = some (GoVal.float64 f)) :
    (fiatConv a).providerCalled = decide (f = 0)
      ∧ (f ≠ 0 → fiatConv a
          = ⟨0, fmtF2 (f * req.amount) ++ "\n", "", a.store, false⟩) := by
  have hr : cachedRate (Load a.store (a.now - cacheLifetime))
      (GoVal.keyFromTo req.fromCur req.toCur) = f := by
    unfold cachedRate
    rw [hg]
  by_cases hf : f = 0
  · subst hf
    refine ⟨?_, fun hne => absurd rfl hne⟩
    unfold fiatConv
    rw [hp]
    simp only [hr, eq_self_iff_true, if_true]
    rcases hcv : a.convert req.fromCur req.toCur with msg | r <;> simp [hcv]
  · have hmain : fiatConv a
        = ⟨0, fmtF2 (f * req.amount) ++ "\n", "", a.store, false⟩ := by
      unfold fiatConv
      rw [hp]
      simp only [hr, if_neg hf]
    refine ⟨?_, fun _ => hmain⟩
    rw [hmain]
    simp [hf]

/-- Witness for C3: a cached non-zero rate 2 is used with no
provider call. -/
theorem hit_zero_like_miss_witness :
    (fiatConv ⟨["prog", "5", "USD", "AUD"],
        GobStream.encoded [(GoVal.keyFromTo "USD" "AUD", ⟨1000, GoVal.float64 2⟩)],
        1000, fun _ _ => Except.error "x"⟩).providerCalled = decide ((2 : Rat) = 0)
      ∧ fiatConv ⟨["prog", "5", "USD", "AUD"],
          GobStream.encoded [(GoVal.keyFromTo "USD" "AUD", ⟨1000, GoVal.float64 2⟩)],
          1000, fun _ _ => Except.error "x"⟩
        = ⟨0, fmtF2 ((2 : Rat) * 5) ++ "\n", "",
            GobStream.encoded [(GoVal.keyFromTo "USD" "AUD", ⟨1000, GoVal.float64 2⟩)],
            false⟩ := by
  have h := hit_zero_like_miss
    ⟨["prog", "5", "USD", "AUD"],
      GobStream.encoded [(GoVal.keyFromTo "USD" "AUD", ⟨1000, GoVal.float64 2⟩)],
      1000, fun _ _ => Except.error "x"⟩
    ⟨5, "USD", "AUD"⟩ 2 (by with_unfolding_all decide) (by with_unfolding_all decide)
  exact ⟨h.1, h.2 (by norm_num)⟩

/-- C4: when the provider returns an error, `fiatConv` writes exactly
the error message followed by a newline to the error stream, exits 1,
writes nothing to the output stream, and neither updates the cache
nor persists it: the backing store is returned unchanged. -/
theorem provider_error_reported (a : AppInput) (req : Request) (msg : String)
    (hp : parseArguments a.args = Except.ok req)
    (hz : cachedRate (Load a.store (a.now - cacheLifetime))
        (GoVal.keyFromTo req.fromCur req.toCur) = 0)
    (he : a.convert req.fromCur req.toCur = Except.error msg) :
    fiatConv a = ⟨1, "", msg ++ "\n", a.store, true⟩ := by
  unfold fiatConv
  rw [hp]
  simp only [hz, he, eq_self_iff_true, if_true]

/-- Witness for C4: the provider error "simulated" on an empty
store. -/
theorem provider_error_reported_witness :
    fiatConv ⟨["prog", "5", "USD", "GBP"], GobStream.empty, 1000,
        fun _ _ => Except.error "simulated"⟩
      = ⟨1, "", "simulated" ++ "\n", GobStream.empty, true⟩ :=
  provider_error_reported _ ⟨5, "USD", "GBP"⟩ "simulated"
    (by with_unfolding_all decide) rfl rfl

/-- Evaluation of `parseArguments` once the length test passed and
the amount parsed: only the two fiat-length checks remain. -/
theorem parseArguments_eval (args : List String) (amt : Rat)
    (h4 : ¬ args.length < 4)
    (hpf : parseFloat64 (args.getD 1 "") = some amt) :
    parseArguments args
      = (if (args.getD 2 "").utf8ByteSize ≠ fiatNameLength then
          Except.error ("Invalid fiat: " ++ args.getD 2 "")
        else if (args.getD 3 "").utf8ByteSize ≠ fiatNameLength then
          Except.error ("Invalid fiat: " ++ args.getD 3 "")
        else
          Except.ok ⟨amt, (args.getD 2 "").toUpper, (args.getD 3 "").toUpper⟩) := by
  unfold parseArguments
  rw [if_neg h4, hpf]

/-- C7: when the arguments fail to parse — fewer than three arguments
after the program name, an amount that is no valid float, or a
currency code whose byte length is not exactly 3 — `fiatConv` writes
the parse error followed by the usage text to the error stream,
returns exit code 1, writes nothing to the output stream, never
invokes the provider, and the backing store is untouched (no cache
load or save is performed: the result is independent of the store and
provider). -/
theorem parse_failure_behavior (a : AppInput)
    (hbad : a.args.length < 4
      ∨ parseFloat64 (a.args.getD 1 "") = none
      ∨ (a.args.getD 2 "").utf8ByteSize ≠ fiatNameLength
      ∨ (a.args.getD 3 "").utf8ByteSize ≠ fiatNameLength) :
    ∃ e, parseArguments a.args = Except.error e
      ∧ fiatConv a = ⟨1, "", e ++ "\n\n" ++ usageText, a.store, false⟩ := by
  have herr : ∃ e, parseArguments a.args = Except.error e := by
    unfold parseArguments
    by_cases h4 : a.args.length < 4
    · rw [if_pos h4]
      exact ⟨_, rfl⟩
    · rw [if_neg h4]
      rcases hpf : parseFloat64 (a.args.getD 1 "") with _ | amt
      · exact ⟨_, rfl⟩
      · have heval := parseArguments_eval a.args amt h4 hpf
        unfold parseArguments at heval
        rw [if_neg h4, hpf] at heval
        rw [heval]
        rcases hbad with h | h | h | h
        · exact absurd h h4
        · rw [h] at hpf
          cases hpf
        · rw [if_pos h]
          exact ⟨_, rfl⟩
        · by_cases h2 : (a.args.getD 2 "").utf8ByteSize ≠ fiatNameLength
          · rw [if_pos h2]
            exact ⟨_, rfl⟩
          · rw [if_neg h2, if_pos h]
            exact ⟨_, rfl⟩
  obtain ⟨e, he⟩ := herr
  refine ⟨e, he, ?_⟩
  unfold fiatConv
  rw [he]

/-- Witness for C7: a lone program name is rejected with the
too-few-arguments error and the usage text, with no provider call
and an unchanged store. -/
theorem parse_failure_behavior_witness :
    fiatConv ⟨["prog"], GobStream.empty, 0, fun _ _ => Except.ok 1⟩
      = ⟨1, "", "too few arguments" ++ "\n\n" ++ usageText, GobStream.empty, false⟩ := by
  obtain ⟨e, he, hb⟩ := parse_failure_behavior
    ⟨["prog"], GobStream.empty, 0, fun _ _ => Except.ok 1⟩ (Or.inl (by decide))
  have hev : parseArguments ["prog"] = Except.error "too few arguments" := by
    with_unfolding_all decide
  rw [he] at hev
  cases hev
  exact hb

/-- C8: an argument list with a parseable float amount (negative
amounts included) and currency codes of byte length 3 in any letter
case parses into a request with both codes normalized to uppercase
and all arguments beyond the third ignored; a code of any other
length is rejected. -/
theorem parse_success_normalizes (a0 amt cf ct : String) (rest : List String) (v : Rat)
    (hv : parseFloat64 amt = some v)
    (hf : cf.utf8ByteSize = fiatNameLength)
    (ht : ct.utf8ByteSize = fiatNameLength) :
    parseArguments (a0 :: amt :: cf :: ct :: rest)
        = Except.ok ⟨v, cf.toUpper, ct.toUpper⟩
      ∧ (∀ cf2 : String, cf2.utf8ByteSize ≠ fiatNameLength
          → ∃ e, parseArguments (a0 :: amt :: cf2 :: ct :: rest) = Except.error e)
      ∧ (∀ ct2 : String, ct2.utf8ByteSize ≠ fiatNameLength
          → ∃ e, parseArguments (a0 :: amt :: cf :: ct2 :: rest) = Except.error e) := by
  refine ⟨?_, fun cf2 h2 => ?_, fun ct2 h3 => ?_⟩
  · unfold parseArguments
    rw [if_neg (by simp only [List.length_cons]; omega)]
    simp only [List.getD_cons_succ, List.getD_cons_zero, hv]
    rw [if_neg (not_not_intro hf), if_neg (not_not_intro ht)]
  · unfold parseArguments
    rw [if_neg (by simp only [List.length_cons]; omega)]
    simp only [List.getD_cons_succ, List.getD_cons_zero, hv]
    rw [if_pos h2]
    exact ⟨_, rfl⟩
  · unfold parseArguments
    rw [if_neg (by simp only [List.length_cons]; omega)]
    simp only [List.getD_cons_succ, List.getD_cons_zero, hv]
    rw [if_neg (not_not_intro hf), if_pos h3]
    exact ⟨_, rfl⟩

/-- Witness for C8: a negative decimal amount with mixed-case codes
and a trailing ignored argument. -/
theorem parse_success_normalizes_witness :
    parseArguments ["prog", "-1.5", "usd", "AUD", "z"]
      = Except.ok ⟨-(3 / 2 : Rat), String.toUpper "usd", String.toUpper "AUD"⟩ :=
  (parse_success_normalizes "prog" "-1.5" "usd" "AUD" ["z"] (-(3 / 2))
    (by with_unfolding_all decide) (by decide) (by decide)).1

/-- C10: a cache hit whose stored value is not a float64 leaves the
rate zero exactly like a miss: the provider is invoked and, on
success, its fresh result overwrites the ill-typed entry, is
persisted, and the converted amount is printed with exit code 0. -/
theorem hit_wrong_type_like_miss (a : AppInput) (req : Request) (v : GoVal) (r : Rat)
    (hp : parseArguments a.args = Except.ok req)
    (hg : (Load a.store (a.now - cacheLifetime)).Get
        (GoVal.keyFromTo req.fromCur req.toCur) = some v)
    (hv : ∀ f : Rat, v ≠ GoVal.float64 f)
    (hc : a.convert req.fromCur req.toCur = Except.ok r) :
    fiatConv a = ⟨0, fmtF2 (r * req.amount) ++ "\n", "",
        ((Load a.store (a.now - cacheLifetime)).Set
            (GoVal.keyFromTo req.fromCur req.toCur) (GoVal.float64 r) a.now).Save,
        true⟩
      ∧ ((Load a.store (a.now - cacheLifetime)).Set
            (GoVal.keyFromTo req.fromCur req.toCur) (GoVal.float64 r) a.now).Get
          (GoVal.keyFromTo req.fromCur req.toCur)
        = some (GoVal.float64 r) := by
  have hz : cachedRate (Load a.store (a.now - cacheLifetime))
      (GoVal.keyFromTo req.fromCur req.toCur) = 0 := by
    unfold cachedRate
    rw [hg]
    rcases v with f | s | ⟨cf, ct⟩
    · exact absurd rfl (hv f)
    · rfl
    · rfl
  refine ⟨fiatConv_zero_rate_ok a req r hp hz hc, ?_⟩
  show (mapLookup (mapSet _ _ _) _).map Item.Value = _
  rw [mapLookup_mapSet]
  simp

/-- Witness for C10: a cached string value under the lookup key is
ignored, the provider rate 2 overwrites it. -/
theorem hit_wrong_type_like_miss_witness :
    fiatConv ⟨["prog", "5", "USD", "AUD"],
        GobStream.encoded [(GoVal.keyFromTo "USD" "AUD", ⟨1000, GoVal.str "bad"⟩)],
        1000, fun _ _ => Except.ok 2⟩
      = ⟨0, fmtF2 ((2 : Rat) * 5) ++ "\n", "",
          ((Load (GobStream.encoded
              [(GoVal.keyFromTo "USD" "AUD", ⟨1000, GoVal.str "bad"⟩)])
              (1000 - cacheLifetime)).Set
            (GoVal.keyFromTo "USD" "AUD") (GoVal.float64 2) 1000).Save, true⟩
      ∧ ((Load (GobStream.encoded
            [(GoVal.keyFromTo "USD" "AUD", ⟨1000, GoVal.str "bad"⟩)])
            (1000 - cacheLifetime)).Set
          (GoVal.keyFromTo "USD" "AUD") (GoVal.float64 2) 1000).Get
          (GoVal.keyFromTo "USD" "AUD")
        = some (GoVal.float64 2) :=
  hit_wrong_type_like_miss
    ⟨["prog", "5", "USD", "AUD"],
      GobStream.encoded [(GoVal.keyFromTo "USD" "AUD", ⟨1000, GoVal.str "bad"⟩)],
      1000, fun _ _ => Except.ok 2⟩
    ⟨5, "USD", "AUD"⟩ (GoVal.str "bad") 2
    (by with_unfolding_all decide) (by with_unfolding_all decide)
    (fun f h => GoVal.noConfusion h) rfl
